import Mathlib

/-!
Verification of the gittuf test-automation scripts.

The definitions below are a shallow embedding of the Python sources:

* `docs/testing/test-get-started-md.py` — the golden-output documentation
  verifier: snippet extraction (`findSnippets` models
  `re.findall(SNIPPET_PATTERN, ...)`), the PowerShell rewrite pass
  (`powershellify`), the execution-environment builder (`buildCmdEnv`),
  output normalization and comparison (`stripNewlines`, `compareReport`),
  the binary precondition check (`check_binaries`) and the
  cleanup-on-every-exit-path skeleton (`runWithCleanup`).
* `.github/workflows/runtests.py` / `runtests3.py` — the smoke-test helper
  `run_command`.

Strings are modelled as `List Char`; external effects (process spawning,
the file system, `PATH` lookup) are modelled as explicit parameters or as
small state records, so that every definition is executable.
-/

/- ### Output report of a verifier run

`test_commands` either prints "Testing completed successfully." and lets the
process end with status 0, or raises `SystemExit(message)` which terminates
the process with status 1 and the given diagnostic message. -/

structure RunReport where
  exitCode : Nat
  message : List Char
deriving DecidableEq

/- ### Environment builder (test-get-started-md.py lines 90-97)

`cmd_env = os.environ.copy()` followed by six fixed assignments.  A process
environment is modelled as a partial map from variable names to values. -/

def setEnv (e : String → Option String) (k v : String) : String → Option String :=
  fun q => if q = k then some v else e q

def buildCmdEnv (host : String → Option String) : String → Option String :=
  setEnv (setEnv (setEnv (setEnv (setEnv (setEnv host
    "GIT_AUTHOR_NAME" "Jane Doe")
    "GIT_AUTHOR_EMAIL" "jane.doe@example.com")
    "GIT_AUTHOR_DATE" "2024-06-03T14:00:00.000Z")
    "GIT_COMMITTER_NAME" "Jane Doe")
    "GIT_COMMITTER_EMAIL" "jane.doe@example.com")
    "GIT_COMMITTER_DATE" "2024-06-03T14:00:00.000Z"

/- ### Binary precondition check (test-get-started-md.py lines 25-28, 121-123)

`shutil.which` is modelled as a predicate `which : String → Bool` telling
whether a binary is on `PATH`. -/

def REQUIRED_BINARIES : List String := ["git", "gittuf", "ssh-keygen"]

def checkBinariesGo (which : String → Bool) : List String → Except String Unit
  | [] => .ok ()
  | p :: rest =>
    if which p then checkBinariesGo which rest
    else .error ("required command " ++ p ++ " not found")

def check_binaries (which : String → Bool) : Except String Unit :=
  checkBinariesGo which REQUIRED_BINARIES

/- `__main__`: `check_binaries()` runs strictly before `test_commands()`.
The world `w` stands for the whole mutable state (file system, cwd, child
processes); `run` is the `test_commands` body, the only thing that touches
it.  On a failed binary check the world is returned untouched and `run` is
never invoked. -/

def main_model {σ : Type} (which : String → Bool) (w : σ)
    (run : σ → σ × RunReport) : σ × Except String RunReport :=
  match check_binaries which with
  | .error msg => (w, .error msg)
  | .ok _ =>
    let wr := run w
    (wr.1, .ok wr.2)

/- ### run_command (.github/workflows/runtests.py lines 6-10, identical in
runtests3.py lines 16-20)

`subprocess.call` is modelled by an oracle `retcodeOf` giving the spawned
process's exit status for a command line. -/

def run_command (retcodeOf : String → Int) (cmd : String)
    (expected_retcode : Int) : Except String Unit :=
  let retcode := retcodeOf cmd
  if retcode ≠ expected_retcode then
    .error ("Expected " ++ toString expected_retcode ++
      " from process but it exited with " ++ toString retcode ++ ".")
  else .ok ()

/- ### Theorems for the environment builder, binary check and run_command -/

/-- Claim C4: the execution environment built for the script agrees with the
host environment on every key other than the six Git identity/timestamp
keys, and maps those six keys to the fixed literals "Jane Doe",
"jane.doe@example.com" and "2024-06-03T14:00:00.000Z" respectively. -/
theorem buildCmdEnv_overrides (host : String → Option String) :
    (∀ k, k ≠ "GIT_AUTHOR_NAME" → k ≠ "GIT_AUTHOR_EMAIL" →
      k ≠ "GIT_AUTHOR_DATE" → k ≠ "GIT_COMMITTER_NAME" →
      k ≠ "GIT_COMMITTER_EMAIL" → k ≠ "GIT_COMMITTER_DATE" →
      buildCmdEnv host k = host k) ∧
    buildCmdEnv host "GIT_AUTHOR_NAME" = some "Jane Doe" ∧
    buildCmdEnv host "GIT_AUTHOR_EMAIL" = some "jane.doe@example.com" ∧
    buildCmdEnv host "GIT_AUTHOR_DATE" = some "2024-06-03T14:00:00.000Z" ∧
    buildCmdEnv host "GIT_COMMITTER_NAME" = some "Jane Doe" ∧
    buildCmdEnv host "GIT_COMMITTER_EMAIL" = some "jane.doe@example.com" ∧
    buildCmdEnv host "GIT_COMMITTER_DATE" = some "2024-06-03T14:00:00.000Z" := by
  refine ⟨fun k h1 h2 h3 h4 h5 h6 => ?_, rfl, rfl, rfl, rfl, rfl, rfl⟩
  simp [buildCmdEnv, setEnv, h1, h2, h3, h4, h5, h6]

/-- Witness for `buildCmdEnv_overrides`: on the host environment that maps
"PATH" to "/usr/bin", the built environment still maps "PATH" to "/usr/bin"
and maps the committer date to the frozen timestamp. -/
theorem buildCmdEnv_overrides_witness :
    buildCmdEnv (fun k => if k = "PATH" then some "/usr/bin" else none) "PATH"
        = some "/usr/bin" ∧
    buildCmdEnv (fun k => if k = "PATH" then some "/usr/bin" else none)
        "GIT_COMMITTER_DATE" = some "2024-06-03T14:00:00.000Z" := by
  have h := buildCmdEnv_overrides
    (fun k => if k = "PATH" then some "/usr/bin" else none)
  refine ⟨?_, h.2.2.2.2.2.2⟩
  have hp := h.1 "PATH" (by decide) (by decide) (by decide) (by decide)
    (by decide) (by decide)
  simpa using hp

/- A first-missing-binary lemma for the check loop. -/

theorem checkBinariesGo_error (which : String → Bool) :
    ∀ l : List String, (∃ p ∈ l, which p = false) →
      ∃ p, p ∈ l ∧ which p = false ∧
        checkBinariesGo which l =
          .error ("required command " ++ p ++ " not found") := by
  intro l h
  induction l with
  | nil => rcases h with ⟨p, hp, _⟩; cases hp
  | cons q rest ih =>
    by_cases hq : which q = true
    · rcases h with ⟨p, hp, hpf⟩
      rcases List.mem_cons.mp hp with rfl | hmem
      · rw [hq] at hpf; cases hpf
      · rcases ih ⟨p, hmem, hpf⟩ with ⟨p', hp', hpf', heq⟩
        exact ⟨p', List.mem_cons_of_mem _ hp', hpf',
          by simpa [checkBinariesGo, hq] using heq⟩
    · refine ⟨q, List.mem_cons_self _ _, by simpa using hq, ?_⟩
      simp [checkBinariesGo, hq]

/-- Claim C6: if any required external binary (git, gittuf, ssh-keygen) is
absent from PATH, the verifier exits with a fatal "binary not found"
diagnostic naming the missing command, and the world (the file system and
every other mutable state) is returned exactly as it was: `test_commands`
is never invoked, so no directory is created, no file opened and no script
executed. -/
theorem missing_binary_fatal_no_mutation {σ : Type} (which : String → Bool)
    (w : σ) (run : σ → σ × RunReport)
    (h : ∃ p ∈ REQUIRED_BINARIES, which p = false) :
    (main_model which w run).1 = w ∧
    ∃ p, p ∈ REQUIRED_BINARIES ∧ which p = false ∧
      (main_model which w run).2 =
        .error ("required command " ++ p ++ " not found") := by
  rcases checkBinariesGo_error which REQUIRED_BINARIES h with ⟨p, hp, hpf, heq⟩
  have hcb : check_binaries which =
      .error ("required command " ++ p ++ " not found") := heq
  refine ⟨?_, p, hp, hpf, ?_⟩ <;> simp [main_model, hcb]

/-- Witness for `missing_binary_fatal_no_mutation`: with gittuf missing from
PATH and a world counter that `test_commands` would bump, the run leaves the
world at 0 and reports a fatal diagnostic naming a missing binary. -/
theorem missing_binary_fatal_no_mutation_witness :
    (main_model (fun p => !(p == "gittuf")) (0 : Nat)
        (fun w => (w + 1, ⟨0, []⟩))).1 = 0 ∧
    ∃ p, p ∈ REQUIRED_BINARIES ∧ (fun p => !(p == "gittuf")) p = false ∧
      (main_model (fun p => !(p == "gittuf")) (0 : Nat)
          (fun w => (w + 1, ⟨0, []⟩))).2 =
        .error ("required command " ++ p ++ " not found") :=
  missing_binary_fatal_no_mutation _ _ _ ⟨"gittuf", by decide, by decide⟩

/-- Claim C10: `run_command` returns normally if and only if the spawned
process's exit status equals the expected return code, and raises an
exception naming both codes otherwise; with the push steps' expected code 1,
a push exiting with status 1 is treated as success and a push exiting with
status 0 raises. -/
theorem run_command_retcode (retcodeOf : String → Int) (cmd : String)
    (exp : Int) :
    (run_command retcodeOf cmd exp = .ok () ↔ retcodeOf cmd = exp) ∧
    (retcodeOf cmd ≠ exp →
      run_command retcodeOf cmd exp =
        .error ("Expected " ++ toString exp ++
          " from process but it exited with " ++ toString (retcodeOf cmd) ++ ".")) ∧
    (retcodeOf cmd = 1 → run_command retcodeOf cmd 1 = .ok ()) ∧
    (retcodeOf cmd = 0 →
      run_command retcodeOf cmd 1 =
        .error "Expected 1 from process but it exited with 0.") := by
  refine ⟨⟨fun h => ?_, fun h => ?_⟩, fun h => ?_, fun h => ?_, fun h => ?_⟩
  · by_contra hne
    simp [run_command, hne] at h
  · simp [run_command, h]
  · simp [run_command, h]
  · simp [run_command, h]
  · rw [run_command]
    simp only [h]
    norm_num
    decide

/-- Witness for `run_command_retcode`: a push command whose process exits
with status 1 against expected code 1 returns normally, and one exiting
with status 0 raises the exception naming both codes. -/
theorem run_command_retcode_witness :
    run_command (fun _ => 1) "git push -u origin test-branch --force" 1
        = .ok () ∧
    run_command (fun _ => 0) "git push -u origin test-branch --force" 1
        = .error "Expected 1 from process but it exited with 0." :=
  ⟨(run_command_retcode (fun _ => 1) "git push -u origin test-branch --force"
      1).2.2.1 rfl,
   (run_command_retcode (fun _ => 0) "git push -u origin test-branch --force"
      1).2.2.2 rfl⟩

/- ### Output normalization (test-get-started-md.py lines 76 and 105)

`re.sub(r'[\r\n]', '', text)` scans the text and deletes every character of
the class, i.e. every carriage return and every linefeed. -/

def stripNewlines : List Char → List Char
  | [] => []
  | c :: t =>
    if c = '\r' ∨ c = '\n' then stripNewlines t else c :: stripNewlines t

/- A character survives normalization exactly when it is neither a carriage
return nor a linefeed. -/

def keepChar (c : Char) : Bool := !(c == '\r' || c == '\n')

/- `str.splitlines()` as used on the normalized transcripts (lines 110-111):
a line ends at "\r\n" or at any single character of Python's line-boundary
set — linefeed, carriage return, vertical tab, form feed, the file, group
and record separators, NEL, LINE SEPARATOR and PARAGRAPH SEPARATOR; a
final unterminated non-empty segment is also a line.  The fuel argument
(instantiated with the string length, which bounds the number of lines)
keeps the definition structural. -/

def isLineBreak (c : Char) : Bool :=
  c == '\n' || c == '\r' || c == '\x0b' || c == '\x0c' ||
  c == '\x1c' || c == '\x1d' || c == '\x1e' || c == '\x85' ||
  c == '\u2028' || c == '\u2029'

def splitLinesF : Nat → List Char → List (List Char)
  | _, [] => []
  | 0, s => [s]
  | fuel + 1, c :: t =>
    let line := (c :: t).takeWhile (fun x => !isLineBreak x)
    match (c :: t).dropWhile (fun x => !isLineBreak x) with
    | '\r' :: '\n' :: t2 => line :: splitLinesF fuel t2
    | _ :: t2 => line :: splitLinesF fuel t2
    | [] => [line]

def splitLines (s : List Char) : List (List Char) := splitLinesF s.length s

/- `"\n".join(...)` (lines 84-86 and 112). -/

def joinNL : List (List Char) → List Char
  | [] => []
  | [s] => s
  | s :: r :: rest => s ++ '\n' :: joinNL (r :: rest)

/-- Modelled from the spec: `difflib.Differ().compare` (Python standard
library, not part of src/) — produces a line-level diff over the two line
sequences, marking deletions with "- ", additions with "+ " and common
lines with "  ". -/
def differCompare (expected actual : List (List Char)) : List (List Char) :=
  if expected = actual then expected.map (fun l => "  ".toList ++ l)
  else (expected.map (fun l => "- ".toList ++ l)) ++
    (actual.map (fun l => "+ ".toList ++ l))

/- ### Output comparison and result reporting (lines 104-114) -/

def successMessage : List Char := "Testing completed successfully.".toList

def mismatchMessage (expected_output stdout : List Char) : List Char :=
  "Testing failed due to unexpected output:\n ".toList ++
    joinNL (differCompare (splitLines (stripNewlines expected_output))
      (splitLines (stripNewlines stdout)))

def compareReport (expected_output stdout : List Char) : RunReport :=
  if stripNewlines stdout ≠ stripNewlines expected_output then
    ⟨1, mismatchMessage expected_output stdout⟩
  else ⟨0, successMessage⟩

/- CRLF-to-LF conversion, used only to state the line-ending-style
normalization law (spec section 8). -/

def crlfToLf : List Char → List Char
  | [] => []
  | [c] => [c]
  | c :: d :: t =>
    if c = '\r' ∧ d = '\n' then '\n' :: crlfToLf t
    else c :: crlfToLf (d :: t)

/- ### Lemmas about normalization -/

theorem stripNewlines_eq_filter (s : List Char) :
    stripNewlines s = s.filter keepChar := by
  induction s with
  | nil => rfl
  | cons c t ih =>
    by_cases h : c = '\r' ∨ c = '\n'
    · have hk : keepChar c = false := by
        rcases h with h | h <;> subst h <;> rfl
      simp [stripNewlines, h, List.filter_cons, hk, ih]
    · have h1 : c ≠ '\r' := fun hc => h (Or.inl hc)
      have h2 : c ≠ '\n' := fun hc => h (Or.inr hc)
      have hk : keepChar c = true := by simp [keepChar, h1, h2]
      simp [stripNewlines, h, List.filter_cons, hk, ih]

theorem stripNewlines_keep (s : List Char) :
    ∀ c ∈ stripNewlines s, keepChar c = true := by
  intro c hc
  rw [stripNewlines_eq_filter] at hc
  exact List.of_mem_filter hc

set_option maxHeartbeats 1000000 in
theorem splitLinesF_no_break (fuel : Nat) (c : Char) (t : List Char)
    (h : ∀ x ∈ c :: t, isLineBreak x = false) :
    splitLinesF (fuel + 1) (c :: t) = [c :: t] := by
  have hb : ∀ x ∈ c :: t, (!isLineBreak x) = true := by
    intro x hx
    rw [h x hx]
    rfl
  have htake : (c :: t).takeWhile (fun x => !isLineBreak x) = c :: t :=
    List.takeWhile_eq_self_iff.mpr hb
  have hdrop : (c :: t).dropWhile (fun x => !isLineBreak x) = [] :=
    List.dropWhile_eq_nil_iff.mpr hb
  simp [splitLinesF, htake, hdrop]

theorem splitLines_no_break (s : List Char)
    (hnb : ∀ x ∈ s, isLineBreak x = false) :
    splitLines s = if s = [] then [] else [s] := by
  rcases hs : s with _ | ⟨c, t⟩
  · simp [splitLines, splitLinesF]
  · subst hs
    have : splitLines (c :: t) = [c :: t] := by
      show splitLinesF (c :: t).length (c :: t) = [c :: t]
      rw [List.length_cons]
      exact splitLinesF_no_break t.length c t hnb
    simp [this]

theorem stripNewlines_crlfToLf (s : List Char) :
    stripNewlines (crlfToLf s) = stripNewlines s := by
  induction s using crlfToLf.induct with
  | case1 => rfl
  | case2 c => rfl
  | case3 c d t h ih =>
    obtain ⟨rfl, rfl⟩ := h
    have hcr : crlfToLf ('\r' :: '\n' :: t) = '\n' :: crlfToLf t := by
      simp [crlfToLf]
    rw [hcr]
    show stripNewlines ('\n' :: crlfToLf t) = stripNewlines ('\r' :: '\n' :: t)
    simp [stripNewlines, ih]
  | case4 c d t h ih =>
    have hc : crlfToLf (c :: d :: t) = c :: crlfToLf (d :: t) := by
      rw [crlfToLf, if_neg h]
    rw [hc]
    by_cases hcc : c = '\r' ∨ c = '\n'
    · simp [stripNewlines, hcc, ih]
    · simp [stripNewlines, hcc, ih]

/-- Claim C1: the verifier fails the run — exit status 1 carrying the
line-level diff of expected versus actual — if and only if the normalized
actual output differs from the normalized expected output; when they are
equal it reports exit status 0 with the success message. -/
theorem compare_fail_iff_mismatch (expected stdout : List Char) :
    ((compareReport expected stdout).exitCode ≠ 0 ↔
      stripNewlines stdout ≠ stripNewlines expected) ∧
    (stripNewlines stdout ≠ stripNewlines expected →
      compareReport expected stdout = ⟨1, mismatchMessage expected stdout⟩) ∧
    (stripNewlines stdout = stripNewlines expected →
      compareReport expected stdout = ⟨0, successMessage⟩) := by
  by_cases h : stripNewlines stdout = stripNewlines expected <;>
    simp [compareReport, h]

/-- Witness for `compare_fail_iff_mismatch`: with expected fixture "a\n" the
actual output "b" makes the run fail with the diff message, and the actual
output "a" makes it report success. -/
theorem compare_fail_iff_mismatch_witness :
    (compareReport "a\n".toList "b".toList).exitCode ≠ 0 ∧
    compareReport "a\n".toList "b".toList =
      ⟨1, mismatchMessage "a\n".toList "b".toList⟩ ∧
    compareReport "a\n".toList "a".toList = ⟨0, successMessage⟩ :=
  ⟨(compare_fail_iff_mismatch "a\n".toList "b".toList).1.mpr (by decide),
   (compare_fail_iff_mismatch "a\n".toList "b".toList).2.1 (by decide),
   (compare_fail_iff_mismatch "a\n".toList "a".toList).2.2 (by decide)⟩

/-- Claim C7: two transcripts that differ only in line-ending style (CRLF
versus LF — i.e. that agree after rewriting every CRLF to LF) normalize to
the same string, so the comparator never reports a mismatch for such a
pair. -/
theorem crlf_lf_compare_equal (s t : List Char)
    (h : crlfToLf s = crlfToLf t) :
    stripNewlines s = stripNewlines t ∧
    compareReport s t = ⟨0, successMessage⟩ := by
  have hst : stripNewlines s = stripNewlines t := by
    rw [← stripNewlines_crlfToLf s, ← stripNewlines_crlfToLf t, h]
  refine ⟨hst, ?_⟩
  simp [compareReport, hst]

/-- Witness for `crlf_lf_compare_equal`: the fixture "a\r\nb\r\n" and the
transcript "a\nb\n" differ only in line-ending style and compare equal. -/
theorem crlf_lf_compare_equal_witness :
    stripNewlines "a\r\nb\r\n".toList = stripNewlines "a\nb\n".toList ∧
    compareReport "a\r\nb\r\n".toList "a\nb\n".toList = ⟨0, successMessage⟩ :=
  crlf_lf_compare_equal "a\r\nb\r\n".toList "a\nb\n".toList (by decide)

/-- Counterexample to claim C9 as stated: normalization removes only
carriage returns and linefeeds, so the transcript "x\x0byz" — which
contains a vertical tab, one of Python's further line-boundary characters
— is unchanged by it, yet its splitlines has two lines, not one: a
newline-stripped transcript has not always collapsed to a single line. -/
theorem normalization_single_line_counterexample :
    stripNewlines ("x\x0byz".toList) = "x\x0byz".toList ∧
    stripNewlines ("x\x0byz".toList) ≠ [] ∧
    splitLines (stripNewlines ("x\x0byz".toList)) =
      ["x".toList, "yz".toList] ∧
    (splitLines (stripNewlines ("x\x0byz".toList))).length ≠ 1 := by
  decide

/-- Claim C9 (amended): normalization deletes every carriage return and
every linefeed from both transcripts (it is exactly a filter on the
remaining characters), so any two transcripts agreeing after removal of
all line breaks — even with different line counts or break positions —
compare equal; on mismatch the diff is computed over the newline-stripped
strings, and such a stripped string has collapsed to at most a single line
(exactly one when non-empty) provided it contains none of Python's other
line-boundary characters (vertical tab, form feed, the file, group and
record separators, NEL, LINE SEPARATOR, PARAGRAPH SEPARATOR), which
normalization does not delete. -/
theorem normalization_collapses_lines (e a : List Char) :
    stripNewlines e = e.filter keepChar ∧
    (stripNewlines e = stripNewlines a →
      compareReport e a = ⟨0, successMessage⟩) ∧
    ((∀ x ∈ stripNewlines a, isLineBreak x = false) →
      (splitLines (stripNewlines a)).length ≤ 1) ∧
    (stripNewlines a ≠ [] →
      (∀ x ∈ stripNewlines a, isLineBreak x = false) →
      (splitLines (stripNewlines a)).length = 1) ∧
    (stripNewlines a ≠ stripNewlines e →
      (compareReport e a).message =
        "Testing failed due to unexpected output:\n ".toList ++
          joinNL (differCompare (splitLines (stripNewlines e))
            (splitLines (stripNewlines a)))) := by
  refine ⟨stripNewlines_eq_filter e, fun h => ?_, fun hnb => ?_,
    fun h hnb => ?_, fun h => ?_⟩
  · simp [compareReport, h]
  · rw [splitLines_no_break _ hnb]
    split <;> simp
  · rw [splitLines_no_break _ hnb, if_neg h]
    rfl
  · simp [compareReport, h, mismatchMessage]

/-- Witness for `normalization_collapses_lines`: "ab\ncd" and "a\r\nbcd"
have different line structure but the same characters once line breaks are
removed, so they compare equal; the stripped actual transcript contains no
further line-boundary character and splits into exactly one line. -/
theorem normalization_collapses_lines_witness :
    stripNewlines "ab\ncd".toList = "ab\ncd".toList.filter keepChar ∧
    compareReport "ab\ncd".toList "a\r\nbcd".toList = ⟨0, successMessage⟩ ∧
    (splitLines (stripNewlines "a\r\nbcd".toList)).length ≤ 1 ∧
    (splitLines (stripNewlines "a\r\nbcd".toList)).length = 1 :=
  ⟨(normalization_collapses_lines "ab\ncd".toList "a\r\nbcd".toList).1,
   (normalization_collapses_lines "ab\ncd".toList "a\r\nbcd".toList).2.1
     (by decide),
   (normalization_collapses_lines "ab\ncd".toList "a\r\nbcd".toList).2.2.1
     (by decide),
   (normalization_collapses_lines "ab\ncd".toList "a\r\nbcd".toList).2.2.2.1
     (by decide) (by decide)⟩

/- ### Temporary-directory cleanup (test-get-started-md.py lines 32-35 and
116-119)

The body of `test_commands` runs inside `try: ... finally: os.chdir(...);
shutil.rmtree(tmp_dir, onerror=remove_readonly)`.  The temporary directory
is modelled as the list of entries the script body created inside it, each
carrying its read-only attribute; `os.unlink`/`os.rmdir` on a read-only
entry fails (as on Windows), which makes `shutil.rmtree` call its `onerror`
handler with the failed function and path. -/

structure TmpEntry where
  path : String
  readOnly : Bool
deriving DecidableEq

structure TmpDirState where
  present : Bool
  entries : List TmpEntry
deriving DecidableEq

/- `os.chmod(path, stat.S_IWRITE)` clears the read-only attribute. -/
def chmodWritable (e : TmpEntry) : TmpEntry := ⟨e.path, false⟩

/- A deletion attempt: returns true when the entry was removed, false when
the operation fails because the entry is read-only. -/
def tryDelete (e : TmpEntry) : Bool := !e.readOnly

/-- remove_readonly (lines 32-35): clear the readonly attribute and retry
the failed operation. -/
def remove_readonly (retry : TmpEntry → Bool) (e : TmpEntry) : Bool :=
  retry (chmodWritable e)

/- `shutil.rmtree(tmp_dir, onerror=remove_readonly)`: delete every entry,
invoking the handler whenever a deletion attempt fails; the directory
itself remains present only if some entry could not be removed at all. -/
def rmtreeEntries (entries : List TmpEntry) : List TmpEntry :=
  entries.filter
    (fun e => !(if tryDelete e then true else remove_readonly tryDelete e))

def rmtree (d : TmpDirState) : TmpDirState :=
  ⟨!(rmtreeEntries d.entries).isEmpty, rmtreeEntries d.entries⟩

/- The possible outcomes of the `try` body: the success print, the
`SystemExit` raised on output mismatch, or any other exception raised
mid-run (e.g. while opening the fixture or running the script). -/
inductive BodyOutcome where
  | success
  | mismatchExit (msg : List Char)
  | raised
deriving DecidableEq

/-- The try/finally skeleton of `test_commands` (lines 72 and 116-119):
after `tempfile.mkdtemp()` the directory exists and the body populates it
with `created`; whatever the body's outcome, the `finally` clause runs
`rmtree` with the `remove_readonly` handler and the outcome propagates. -/
def runWithCleanup (created : List TmpEntry) (outcome : BodyOutcome) :
    TmpDirState × BodyOutcome :=
  let afterBody : TmpDirState := ⟨true, created⟩
  (rmtree afterBody, outcome)

/-- Claim C3: on every exit path of the run — success, output mismatch or
an exception raised mid-run — the temporary directory and all its entries
(read-only ones included, their attribute cleared and the deletion retried
by the `remove_readonly` handler) are removed. -/
theorem cleanup_on_all_exit_paths (created : List TmpEntry)
    (outcome : BodyOutcome) :
    (runWithCleanup created outcome).1.present = false ∧
    (runWithCleanup created outcome).1.entries = [] ∧
    (runWithCleanup created outcome).2 = outcome := by
  have hdel : rmtreeEntries created = [] := by
    apply List.filter_eq_nil_iff.mpr
    intro e _
    rcases e with ⟨p, ro⟩
    cases ro <;> simp [tryDelete, remove_readonly, chmodWritable]
  refine ⟨?_, ?_, rfl⟩ <;> simp [runWithCleanup, rmtree, hdel]

/- ### The PowerShell rewrite pass (test-get-started-md.py lines 38-52)

Python's substring test `pat in s`. -/

def containsSub (pat : List Char) : List Char → Bool
  | [] => pat.isPrefixOf []
  | c :: t => pat.isPrefixOf (c :: t) || containsSub pat t

/- `cmds[i].replace("&&", ";")`: left-to-right, non-overlapping. -/

def ampToSemi : List Char → List Char
  | [] => []
  | [c] => [c]
  | c :: d :: t =>
    if c = '&' ∧ d = '&' then ';' :: ampToSemi t
    else c :: ampToSemi (d :: t)

/- Absence of an occurrence of "&&". -/

def noAmp2 : List Char → Bool
  | [] => true
  | [_] => true
  | c :: d :: t => if c = '&' ∧ d = '&' then false else noAmp2 (d :: t)

/- The character classes of the pattern `mkdir\s+[a-zA-Z0-9-]+`. -/

def isPsSpace (c : Char) : Bool :=
  c == ' ' || c == '\t' || c == '\n' || c == '\r' || c == '\x0b' || c == '\x0c'

def isNameChar (c : Char) : Bool :=
  (decide ('a' ≤ c) && decide (c ≤ 'z')) ||
  (decide ('A' ≤ c) && decide (c ≤ 'Z')) ||
  (decide ('0' ≤ c) && decide (c ≤ '9')) || c == '-'

/- A match of `mkdir\s+[a-zA-Z0-9-]+` at the start of `s`: the literal,
then a maximal non-empty run of whitespace, then a maximal non-empty run of
name characters (the two classes are disjoint, so the greedy quantifiers
need no backtracking).  Returns the matched text and the remainder. -/

def matchMkdir (s : List Char) : Option (List Char × List Char) :=
  if ("mkdir".toList).isPrefixOf s then
    if (s.drop 5).takeWhile isPsSpace = [] ∨
        ((s.drop 5).dropWhile isPsSpace).takeWhile isNameChar = [] then none
    else
      some ("mkdir".toList ++ (s.drop 5).takeWhile isPsSpace ++
        ((s.drop 5).dropWhile isPsSpace).takeWhile isNameChar,
        ((s.drop 5).dropWhile isPsSpace).dropWhile isNameChar)
  else none

/- `re.sub(r'(mkdir\s+[a-zA-Z0-9-]+)', r'\1 > $null', cmd)`: scan left to
right, emit the matched group followed by " > $null", continue after the
match.  Fuel (instantiated with the string length) keeps it structural. -/

def mkdirSubF : Nat → List Char → List Char
  | _, [] => []
  | 0, s => s
  | fuel + 1, c :: t =>
    match matchMkdir (c :: t) with
    | some (m, rest) => m ++ " > $null".toList ++ mkdirSubF fuel rest
    | none => c :: mkdirSubF fuel t

def mkdirSub (s : List Char) : List Char := mkdirSubF s.length s

/- `cmds[i].replace('-N ""', "-N '\"\"'")`. -/

def fixSshKeygenNF : Nat → List Char → List Char
  | _, [] => []
  | 0, s => s
  | fuel + 1, c :: t =>
    if ("-N \"\"".toList).isPrefixOf (c :: t) then
      "-N '\"\"'".toList ++ fixSshKeygenNF fuel ((c :: t).drop 5)
    else c :: fixSshKeygenNF fuel t

def fixSshKeygenN (s : List Char) : List Char := fixSshKeygenNF s.length s

/- The per-command body of the `powershellify` loop (lines 38-52): replace
"&&" by ";", then, if the command mentions mkdir, append the null
redirection after each mkdir match, then, if it mentions ssh-keygen,
single-quote the empty -N argument. -/

def psTransform (cmd : List Char) : List Char :=
  let c1 := ampToSemi cmd
  let c2 := if containsSub ("mkdir".toList) c1 then mkdirSub c1 else c1
  if containsSub ("ssh-keygen".toList) c2 then fixSshKeygenN c2 else c2

def powershellify (cmds : List (List Char)) : List (List Char) :=
  cmds.map psTransform

/- ### Lemmas about noAmp2 and containsSub -/

theorem noAmp2_cons_of_ne (c : Char) (X : List Char) (h : c ≠ '&') :
    noAmp2 (c :: X) = noAmp2 X := by
  cases X with
  | nil => rfl
  | cons x xs =>
    have : ¬(c = '&' ∧ x = '&') := fun hx => h hx.1
    simp [noAmp2, this]

theorem noAmp2_tail (c : Char) (X : List Char) (h : noAmp2 (c :: X) = true) :
    noAmp2 X = true := by
  cases X with
  | nil => rfl
  | cons x xs =>
    by_cases hx : c = '&' ∧ x = '&'
    · simp [noAmp2, hx] at h
    · simpa [noAmp2, hx] using h

theorem noAmp2_append_right (a b : List Char)
    (h : noAmp2 (a ++ b) = true) : noAmp2 b = true := by
  induction a with
  | nil => simpa using h
  | cons c a ih => exact ih (noAmp2_tail c (a ++ b) h)

theorem noAmp2_append_left (a b : List Char) (h : ∀ c ∈ a, c ≠ '&') :
    noAmp2 (a ++ b) = noAmp2 b := by
  induction a with
  | nil => simp
  | cons c a ih =>
    rw [List.cons_append,
      noAmp2_cons_of_ne c (a ++ b) (h c (List.mem_cons_self _ _)),
      ih (fun x hx => h x (List.mem_cons_of_mem _ hx))]

theorem noAmp2_of_all (s : List Char) (h : ∀ c ∈ s, c ≠ '&') :
    noAmp2 s = true := by
  have := noAmp2_append_left s [] h
  simpa using this

theorem containsSub_amp_iff (s : List Char) :
    containsSub ("&&".toList) s = false ↔ noAmp2 s = true := by
  induction s with
  | nil => simp [containsSub, noAmp2, List.isPrefixOf]
  | cons c t ih =>
    cases t with
    | nil =>
      simp [containsSub, noAmp2, List.isPrefixOf]
    | cons d t2 =>
      have hpre : ("&&".toList).isPrefixOf (c :: d :: t2) =
          (c == '&' && d == '&') := by
        show List.isPrefixOf ['&', '&'] (c :: d :: t2) = (c == '&' && d == '&')
        simp [List.isPrefixOf, BEq.comm]
      by_cases h : c = '&' ∧ d = '&'
      · obtain ⟨rfl, rfl⟩ := h
        simp [containsSub, noAmp2, hpre]
      · have hb : (c == '&' && d == '&') = false := by
          rcases not_and_or.mp h with h1 | h1 <;> simp [h1]
        rw [containsSub, hpre, hb, Bool.false_or, noAmp2, if_neg h]
        exact ih

theorem containsSub_mem (pat s : List Char)
    (h : containsSub pat s = true) : ∀ c ∈ pat, c ∈ s := by
  induction s with
  | nil =>
    intro c hc
    rw [containsSub] at h
    have : pat = [] := by
      cases pat with
      | nil => rfl
      | cons p ps => simp [List.isPrefixOf] at h
    subst this; cases hc
  | cons x t ih =>
    intro c hc
    rw [containsSub, Bool.or_eq_true] at h
    rcases h with h | h
    · have hp : pat <+: x :: t := List.isPrefixOf_iff_prefix.mp h
      exact hp.sublist.subset hc
    · exact List.mem_cons_of_mem _ (ih h c hc)

theorem containsSub_of_isPrefixOf (pat s : List Char)
    (h : pat.isPrefixOf s = true) : containsSub pat s = true := by
  cases s with
  | nil => simpa [containsSub] using h
  | cons c t => simp [containsSub, h]

/- ### Lemmas about ampToSemi -/

theorem ampToSemi_head (d : Char) (t : List Char) :
    ∃ e r, ampToSemi (d :: t) = e :: r ∧ (e = d ∨ e = ';') := by
  cases t with
  | nil => exact ⟨d, [], rfl, Or.inl rfl⟩
  | cons x xs =>
    by_cases h : d = '&' ∧ x = '&'
    · exact ⟨';', ampToSemi xs, by simp [ampToSemi, h], Or.inr rfl⟩
    · exact ⟨d, ampToSemi (x :: xs), by simp [ampToSemi, h], Or.inl rfl⟩

theorem noAmp2_ampToSemi : ∀ s : List Char, noAmp2 (ampToSemi s) = true
  | [] => rfl
  | [_] => rfl
  | c :: d :: t => by
    by_cases h : c = '&' ∧ d = '&'
    · have hred : ampToSemi (c :: d :: t) = ';' :: ampToSemi t := by
        simp [ampToSemi, h]
      rw [hred, noAmp2_cons_of_ne ';' (ampToSemi t) (by decide)]
      exact noAmp2_ampToSemi t
    · have hred : ampToSemi (c :: d :: t) = c :: ampToSemi (d :: t) := by
        simp [ampToSemi, h]
      rw [hred]
      by_cases hc : c = '&'
      · subst hc
        have hd : d ≠ '&' := fun hd => h ⟨rfl, hd⟩
        obtain ⟨e, r, her, hor⟩ := ampToSemi_head d t
        have he : e ≠ '&' := by
          rcases hor with rfl | rfl
          · exact hd
          · decide
        rw [her]
        have : ¬('&' = '&' ∧ e = '&') := fun hx => he hx.2
        rw [noAmp2, if_neg this, ← her]
        exact noAmp2_ampToSemi (d :: t)
      · rw [noAmp2_cons_of_ne c (ampToSemi (d :: t)) hc]
        exact noAmp2_ampToSemi (d :: t)

theorem ampToSemi_id : ∀ s : List Char, noAmp2 s = true → ampToSemi s = s
  | [], _ => rfl
  | [_], _ => rfl
  | c :: d :: t, h => by
    have hne : ¬(c = '&' ∧ d = '&') := by
      intro hx
      simp [noAmp2, hx] at h
    have ht : noAmp2 (d :: t) = true := by
      simpa [noAmp2, hne] using h
    simp [ampToSemi, hne, ampToSemi_id (d :: t) ht]

/- ### Character-class facts -/

theorem isPsSpace_cases (c : Char) (h : isPsSpace c = true) :
    c = ' ' ∨ c = '\t' ∨ c = '\n' ∨ c = '\r' ∨ c = '\x0b' ∨ c = '\x0c' := by
  have h2 := h
  simp [isPsSpace] at h2
  tauto

theorem isPsSpace_ne_amp (c : Char) (h : isPsSpace c = true) : c ≠ '&' := by
  rcases isPsSpace_cases c h with rfl | rfl | rfl | rfl | rfl | rfl <;> decide

theorem isPsSpace_ne_quote (c : Char) (h : isPsSpace c = true) : c ≠ '"' := by
  rcases isPsSpace_cases c h with rfl | rfl | rfl | rfl | rfl | rfl <;> decide

theorem isNameChar_ne_amp (c : Char) (h : isNameChar c = true) : c ≠ '&' := by
  intro hc; subst hc; exact absurd h (by decide)

theorem isNameChar_ne_quote (c : Char) (h : isNameChar c = true) : c ≠ '"' := by
  intro hc; subst hc; exact absurd h (by decide)

theorem isNameChar_not_space (c : Char) (h : isNameChar c = true) :
    isPsSpace c = false := by
  by_contra hs
  rcases isPsSpace_cases c (by simpa using hs) with
    rfl | rfl | rfl | rfl | rfl | rfl <;> exact absurd h (by decide)

/- ### Lemmas about matchMkdir and mkdirSubF -/

theorem matchMkdir_some (s m r : List Char) (h : matchMkdir s = some (m, r)) :
    s = m ++ r ∧ (∃ m2, m = 'm' :: m2) ∧ ∀ c ∈ m, c ≠ '&' ∧ c ≠ '"' := by
  rw [matchMkdir] at h
  split at h
  case isFalse => simp at h
  case isTrue hpre =>
    split at h
    case isTrue hc => simp at h
    case isFalse hc =>
      rw [Option.some.injEq, Prod.mk.injEq] at h
      obtain ⟨hm, hr⟩ := h
      have hs5 : s = "mkdir".toList ++ s.drop 5 := by
        obtain ⟨u, hu⟩ := List.isPrefixOf_iff_prefix.mp hpre
        rw [← hu, List.drop_left' (by decide)]
      constructor
      · rw [← hm, ← hr]
        have e1 := List.takeWhile_append_dropWhile isPsSpace (s.drop 5)
        have e2 := List.takeWhile_append_dropWhile isNameChar
          ((s.drop 5).dropWhile isPsSpace)
        calc s = "mkdir".toList ++ s.drop 5 := hs5
          _ = "mkdir".toList ++
              (List.takeWhile isPsSpace (s.drop 5) ++
                List.dropWhile isPsSpace (s.drop 5)) := by rw [e1]
          _ = "mkdir".toList ++
              (List.takeWhile isPsSpace (s.drop 5) ++
                (List.takeWhile isNameChar ((s.drop 5).dropWhile isPsSpace) ++
                  List.dropWhile isNameChar ((s.drop 5).dropWhile isPsSpace))) := by
                rw [e2]
          _ = ("mkdir".toList ++ List.takeWhile isPsSpace (s.drop 5) ++
              List.takeWhile isNameChar ((s.drop 5).dropWhile isPsSpace)) ++
              List.dropWhile isNameChar ((s.drop 5).dropWhile isPsSpace) := by
                simp [List.append_assoc]
      constructor
      · exact ⟨_, hm.symm⟩
      · intro c hcm
        rw [← hm] at hcm
        rcases List.mem_append.mp hcm with hc1 | hc2
        · rcases List.mem_append.mp hc1 with hc3 | hc4
          · have : c ∈ ['m', 'k', 'd', 'i', 'r'] := hc3
            simp at this
            rcases this with rfl | rfl | rfl | rfl | rfl <;> exact ⟨by decide, by decide⟩
          · have hsp := List.mem_takeWhile_imp hc4
            exact ⟨isPsSpace_ne_amp c hsp, isPsSpace_ne_quote c hsp⟩
        · have hnm := List.mem_takeWhile_imp hc2
          exact ⟨isNameChar_ne_amp c hnm, isNameChar_ne_quote c hnm⟩

theorem mkdirSubF_zero (s : List Char) : mkdirSubF 0 s = s := by
  cases s <;> rfl

theorem mkdirSubF_head (fuel : Nat) (d : Char) (t : List Char) :
    ∃ r2, mkdirSubF fuel (d :: t) = d :: r2 := by
  cases fuel with
  | zero => exact ⟨t, mkdirSubF_zero _⟩
  | succ f =>
    rcases hmm : matchMkdir (d :: t) with _ | ⟨m, rest⟩
    · exact ⟨mkdirSubF f t, by simp [mkdirSubF, hmm]⟩
    · obtain ⟨hdec, ⟨m2, rfl⟩, _⟩ := matchMkdir_some _ _ _ hmm
      have hd : d = 'm' := by
        have := hdec
        simp only [List.cons_append] at this
        exact ((List.cons.injEq _ _ _ _).mp this).1
      subst hd
      exact ⟨m2 ++ (" > $null".toList ++ mkdirSubF f rest),
        by simp [mkdirSubF, hmm]⟩

theorem noAmp2_mkdirSubF (fuel : Nat) :
    ∀ s : List Char, noAmp2 s = true → noAmp2 (mkdirSubF fuel s) = true := by
  induction fuel with
  | zero => intro s h; rwa [mkdirSubF_zero]
  | succ f ih =>
    intro s h
    cases s with
    | nil => rfl
    | cons c t =>
      rcases hmm : matchMkdir (c :: t) with _ | ⟨m, rest⟩
      · have hred : mkdirSubF (f + 1) (c :: t) = c :: mkdirSubF f t := by
          simp [mkdirSubF, hmm]
        rw [hred]
        by_cases hcamp : c = '&'
        · subst hcamp
          cases t with
          | nil =>
            have hnil : mkdirSubF f ([] : List Char) = [] := by cases f <;> rfl
            rw [hnil]
            rfl
          | cons d t2 =>
            have hd : d ≠ '&' := by
              intro hd
              subst hd
              simp [noAmp2] at h
            obtain ⟨r2, hr2⟩ := mkdirSubF_head f d t2
            rw [hr2, noAmp2, if_neg (fun hx => hd hx.2), ← hr2]
            exact ih (d :: t2) (noAmp2_tail _ _ h)
        · rw [noAmp2_cons_of_ne c _ hcamp]
          exact ih t (noAmp2_tail c t h)
      · obtain ⟨hdec, _, hchars⟩ := matchMkdir_some _ _ _ hmm
        have hred : mkdirSubF (f + 1) (c :: t) =
            m ++ (" > $null".toList ++ mkdirSubF f rest) := by
          simp [mkdirSubF, hmm]
        rw [hred,
          noAmp2_append_left m _ (fun x hx => (hchars x hx).1),
          noAmp2_append_left _ _ (by decide)]
        exact ih rest (noAmp2_append_right m rest (hdec ▸ h))

/- ### Lemmas about fixSshKeygenNF -/

theorem fixSshKeygenNF_zero (s : List Char) : fixSshKeygenNF 0 s = s := by
  cases s <;> rfl

theorem fixSshKeygenNF_succ_cons (f : Nat) (c : Char) (t : List Char) :
    fixSshKeygenNF (f + 1) (c :: t) =
      if ("-N \"\"".toList).isPrefixOf (c :: t) = true then
        "-N '\"\"'".toList ++ fixSshKeygenNF f ((c :: t).drop 5)
      else c :: fixSshKeygenNF f t := rfl

theorem fixSshKeygenNF_head (fuel : Nat) (d : Char) (t : List Char) :
    ∃ e r2, fixSshKeygenNF fuel (d :: t) = e :: r2 ∧ (e = '-' ∨ e = d) := by
  cases fuel with
  | zero => exact ⟨d, t, fixSshKeygenNF_zero _, Or.inr rfl⟩
  | succ f =>
    by_cases hpre : ("-N \"\"".toList).isPrefixOf (d :: t) = true
    · refine ⟨'-', "N '\"\"'".toList ++ fixSshKeygenNF f ((d :: t).drop 5),
        ?_, Or.inl rfl⟩
      rw [fixSshKeygenNF_succ_cons, if_pos hpre]
      rfl
    · exact ⟨d, fixSshKeygenNF f t,
        by rw [fixSshKeygenNF_succ_cons, if_neg hpre], Or.inr rfl⟩

theorem noAmp2_fixSshKeygenNF (fuel : Nat) :
    ∀ s : List Char, noAmp2 s = true →
      noAmp2 (fixSshKeygenNF fuel s) = true := by
  induction fuel with
  | zero => intro s h; rwa [fixSshKeygenNF_zero]
  | succ f ih =>
    intro s h
    cases s with
    | nil => rfl
    | cons c t =>
      by_cases hpre : ("-N \"\"".toList).isPrefixOf (c :: t) = true
      · rw [fixSshKeygenNF_succ_cons, if_pos hpre,
          noAmp2_append_left _ _ (by decide)]
        apply ih
        have hdec : (c :: t).take 5 ++ (c :: t).drop 5 = c :: t :=
          List.take_append_drop 5 (c :: t)
        exact noAmp2_append_right _ _ (by rw [hdec]; exact h)
      · rw [fixSshKeygenNF_succ_cons, if_neg hpre]
        by_cases hcamp : c = '&'
        · subst hcamp
          cases t with
          | nil =>
            have hnil : fixSshKeygenNF f ([] : List Char) = [] := by
              cases f <;> rfl
            rw [hnil]
            rfl
          | cons d t2 =>
            have hd : d ≠ '&' := by
              intro hd
              subst hd
              simp [noAmp2] at h
            obtain ⟨e, r2, hr2, hor⟩ := fixSshKeygenNF_head f d t2
            have he : e ≠ '&' := by
              rcases hor with rfl | rfl
              · decide
              · exact hd
            rw [hr2, noAmp2, if_neg (fun hx => he hx.2), ← hr2]
            exact ih (d :: t2) (noAmp2_tail _ _ h)
        · rw [noAmp2_cons_of_ne c _ hcamp]
          exact ih t (noAmp2_tail c t h)

theorem fixSshKeygenNF_id (fuel : Nat) :
    ∀ s : List Char, (∀ c ∈ s, c ≠ '"') → fixSshKeygenNF fuel s = s := by
  induction fuel with
  | zero => intro s _; exact fixSshKeygenNF_zero s
  | succ f ih =>
    intro s h
    cases s with
    | nil => rfl
    | cons c t =>
      have hpre : ¬(("-N \"\"".toList).isPrefixOf (c :: t) = true) := by
        intro hp
        refine h '"' ?_ rfl
        exact (List.isPrefixOf_iff_prefix.mp hp).sublist.subset (by decide)
      rw [fixSshKeygenNF_succ_cons, if_neg hpre,
        ih t (fun x hx => h x (List.mem_cons_of_mem _ hx))]

/- ### psTransform-level lemmas -/

theorem noAmp2_psTransform (cmd : List Char) :
    noAmp2 (psTransform cmd) = true := by
  have h1 : noAmp2 (ampToSemi cmd) = true := noAmp2_ampToSemi cmd
  have key : ∀ x : List Char, noAmp2 x = true →
      noAmp2 (if containsSub ("ssh-keygen".toList) x
        then fixSshKeygenN x else x) = true := by
    intro x hx
    split
    · exact noAmp2_fixSshKeygenNF _ _ hx
    · exact hx
  have h2 : noAmp2 (if containsSub ("mkdir".toList) (ampToSemi cmd)
      then mkdirSub (ampToSemi cmd) else ampToSemi cmd) = true := by
    split
    · exact noAmp2_mkdirSubF _ _ h1
    · exact h1
  exact key _ h2

theorem psTransform_amp_free (cmd : List Char) :
    containsSub ("&&".toList) (psTransform cmd) = false :=
  (containsSub_amp_iff _).mpr (noAmp2_psTransform cmd)

theorem psTransform_id (cmd : List Char)
    (h1 : containsSub ("&&".toList) cmd = false)
    (h2 : containsSub ("mkdir".toList) cmd = false)
    (h3 : containsSub ("ssh-keygen".toList) cmd = false) :
    psTransform cmd = cmd := by
  have ha : ampToSemi cmd = cmd :=
    ampToSemi_id cmd ((containsSub_amp_iff cmd).mp h1)
  have h2l : containsSub ['m', 'k', 'd', 'i', 'r'] cmd = false := h2
  have h3l : containsSub ['s', 's', 'h', '-', 'k', 'e', 'y', 'g', 'e', 'n']
      cmd = false := h3
  simp [psTransform, ha, h2l, h3l]

theorem mkdirSubF_succ_cons (f : Nat) (c : Char) (t m rest : List Char)
    (h : matchMkdir (c :: t) = some (m, rest)) :
    mkdirSubF (f + 1) (c :: t) =
      m ++ (" > $null".toList ++ mkdirSubF f rest) := by
  simp [mkdirSubF, h]

theorem psTransform_mkdir : ∀ d : List Char, d ≠ [] →
    (∀ c ∈ d, isNameChar c = true) →
    psTransform ("mkdir ".toList ++ d) =
      "mkdir ".toList ++ d ++ " > $null".toList
  | [], hne, _ => absurd rfl hne
  | d0 :: d2, _, hall => by
    have hd0 : isNameChar d0 = true := hall _ (List.mem_cons_self _ _)
    have hchars : ∀ c ∈ "mkdir ".toList ++ (d0 :: d2), c ≠ '&' := by
      intro c hc
      rcases List.mem_append.mp hc with hl | hr
      · have hl2 : c ∈ ['m', 'k', 'd', 'i', 'r', ' '] := hl
        simp at hl2
        rcases hl2 with rfl | rfl | rfl | rfl | rfl | rfl <;> decide
      · exact isNameChar_ne_amp c (hall c hr)
    have hamp : ampToSemi ("mkdir ".toList ++ (d0 :: d2)) =
        "mkdir ".toList ++ (d0 :: d2) :=
      ampToSemi_id _ (noAmp2_of_all _ hchars)
    have hpre : ("mkdir".toList).isPrefixOf
        ("mkdir ".toList ++ (d0 :: d2)) = true := by
      rw [show "mkdir ".toList ++ (d0 :: d2) =
        "mkdir".toList ++ (' ' :: d0 :: d2) from rfl]
      exact List.isPrefixOf_iff_prefix.mpr (List.prefix_append _ _)
    have hcont : containsSub ("mkdir".toList)
        ("mkdir ".toList ++ (d0 :: d2)) = true :=
      containsSub_of_isPrefixOf _ _ hpre
    have hdrop : ("mkdir ".toList ++ (d0 :: d2)).drop 5 = ' ' :: d0 :: d2 := by
      rw [show "mkdir ".toList ++ (d0 :: d2) =
        "mkdir".toList ++ (' ' :: d0 :: d2) from rfl]
      exact List.drop_left' (by decide)
    have hd0sp : isPsSpace d0 = false := isNameChar_not_space d0 hd0
    have hsp : (' ' :: d0 :: d2).takeWhile isPsSpace = [' '] := by
      rw [List.takeWhile_cons, if_pos (by decide), List.takeWhile_cons,
        if_neg (by simp [hd0sp])]
    have hdw : (' ' :: d0 :: d2).dropWhile isPsSpace = d0 :: d2 := by
      rw [List.dropWhile_cons, if_pos (by decide), List.dropWhile_cons,
        if_neg (by simp [hd0sp])]
    have hnm : (d0 :: d2).takeWhile isNameChar = d0 :: d2 :=
      List.takeWhile_eq_self_iff.mpr hall
    have hnm2 : (d0 :: d2).dropWhile isNameChar = [] :=
      List.dropWhile_eq_nil_iff.mpr hall
    have hmatch : matchMkdir ("mkdir ".toList ++ (d0 :: d2)) =
        some ("mkdir ".toList ++ (d0 :: d2), []) := by
      rw [matchMkdir, if_pos hpre, hdrop, hsp, hdw, hnm, hnm2,
        if_neg (by simp)]
      rfl
    have hlen : ("mkdir ".toList ++ (d0 :: d2)).length =
        (5 + (d0 :: d2).length) + 1 := by
      simp [List.length_append]
      omega
    have hsub : mkdirSub ("mkdir ".toList ++ (d0 :: d2)) =
        "mkdir ".toList ++ (d0 :: d2) ++ " > $null".toList := by
      show mkdirSubF ("mkdir ".toList ++ (d0 :: d2)).length
        ("mkdir ".toList ++ (d0 :: d2)) = _
      rw [hlen]
      have hmatch2 : matchMkdir ('m' :: ("kdir ".toList ++ (d0 :: d2))) =
          some ("mkdir ".toList ++ (d0 :: d2), []) := hmatch
      have hz : mkdirSubF (5 + (d0 :: d2).length) ([] : List Char) = [] := by
        cases h5 : 5 + (d0 :: d2).length <;> rfl
      rw [show ("mkdir ".toList ++ (d0 :: d2)) =
        'm' :: ("kdir ".toList ++ (d0 :: d2)) from rfl,
        mkdirSubF_succ_cons _ _ _ _ _ hmatch2, hz]
      simp [List.append_assoc]
    have hnoq : ∀ c ∈ "mkdir ".toList ++ (d0 :: d2) ++ " > $null".toList,
        c ≠ '"' := by
      intro c hc
      rcases List.mem_append.mp hc with hm | hins
      · rcases List.mem_append.mp hm with hl | hr
        · have hl2 : c ∈ ['m', 'k', 'd', 'i', 'r', ' '] := hl
          simp at hl2
          rcases hl2 with rfl | rfl | rfl | rfl | rfl | rfl <;> decide
        · exact isNameChar_ne_quote c (hall c hr)
      · intro hceq
        subst hceq
        exact absurd hins (by decide)
    have hstep2 : (if containsSub ("mkdir".toList)
        (ampToSemi ("mkdir ".toList ++ (d0 :: d2)))
        then mkdirSub (ampToSemi ("mkdir ".toList ++ (d0 :: d2)))
        else ampToSemi ("mkdir ".toList ++ (d0 :: d2))) =
        "mkdir ".toList ++ (d0 :: d2) ++ " > $null".toList := by
      rw [hamp, hcont]
      simp only [if_true]
      exact hsub
    show (if containsSub ("ssh-keygen".toList)
        (if containsSub ("mkdir".toList)
          (ampToSemi ("mkdir ".toList ++ (d0 :: d2)))
          then mkdirSub (ampToSemi ("mkdir ".toList ++ (d0 :: d2)))
          else ampToSemi ("mkdir ".toList ++ (d0 :: d2)))
        then fixSshKeygenN (if containsSub ("mkdir".toList)
          (ampToSemi ("mkdir ".toList ++ (d0 :: d2)))
          then mkdirSub (ampToSemi ("mkdir ".toList ++ (d0 :: d2)))
          else ampToSemi ("mkdir ".toList ++ (d0 :: d2)))
        else (if containsSub ("mkdir".toList)
          (ampToSemi ("mkdir ".toList ++ (d0 :: d2)))
          then mkdirSub (ampToSemi ("mkdir ".toList ++ (d0 :: d2)))
          else ampToSemi ("mkdir ".toList ++ (d0 :: d2)))) =
        "mkdir ".toList ++ (d0 :: d2) ++ " > $null".toList
    rw [hstep2]
    split
    · exact fixSshKeygenNF_id _ _ hnoq
    · rfl

/-- Claim C5: the PowerShell rewrite pass maps each snippet command through
the per-command transform, which replaces every occurrence of "&&" with ";"
(leaving no "&&" in any rewritten command), appends the redirection
" > $null" after each mkdir invocation (the literal, whitespace, and a
non-empty [a-zA-Z0-9-]+ name, as the source regex delimits an invocation),
rewrites the empty-string -N "" argument of ssh-keygen into single-quoted
form, and leaves every command containing none of "&&", "mkdir" or
"ssh-keygen" completely unchanged. -/
theorem powershellify_rewrites :
    (∀ cmds, powershellify cmds = cmds.map psTransform) ∧
    (∀ cmd, containsSub ("&&".toList) (psTransform cmd) = false) ∧
    (∀ d, d ≠ [] → (∀ c ∈ d, isNameChar c = true) →
      psTransform ("mkdir ".toList ++ d) =
        "mkdir ".toList ++ d ++ " > $null".toList) ∧
    psTransform ("ssh-keygen -q -t ecdsa -f ./keys/alice -N \"\"".toList) =
      "ssh-keygen -q -t ecdsa -f ./keys/alice -N '\"\"'".toList ∧
    psTransform ("cd repo && git init -q -b main".toList) =
      "cd repo ; git init -q -b main".toList ∧
    (∀ cmd, containsSub ("&&".toList) cmd = false →
      containsSub ("mkdir".toList) cmd = false →
      containsSub ("ssh-keygen".toList) cmd = false →
      psTransform cmd = cmd) :=
  ⟨fun _ => rfl, psTransform_amp_free, psTransform_mkdir,
   by decide, by decide, psTransform_id⟩

/-- Witness for `powershellify_rewrites`: the pass rewrites the get-started
command "mkdir repo && cd repo" into "mkdir repo > $null ; cd repo",
appends the redirection after "mkdir repo", leaves no "&&" in the rewrite
of "a && b", and leaves "git status" unchanged. -/
theorem powershellify_rewrites_witness :
    powershellify ["mkdir repo && cd repo".toList] =
      ["mkdir repo > $null ; cd repo".toList] ∧
    psTransform ("mkdir ".toList ++ "repo".toList) =
      "mkdir ".toList ++ "repo".toList ++ " > $null".toList ∧
    containsSub ("&&".toList) (psTransform ("a && b".toList)) = false ∧
    psTransform ("git status".toList) = "git status".toList :=
  ⟨by decide,
   powershellify_rewrites.2.2.1 ("repo".toList) (by decide) (by decide),
   powershellify_rewrites.2.1 ("a && b".toList),
   powershellify_rewrites.2.2.2.2.2 ("git status".toList)
     (by decide) (by decide) (by decide)⟩

/- ### Snippet extraction (test-get-started-md.py lines 15 and 78)

`SNIPPET_PATTERN` opens at the 8-character marker (three backticks, "bash",
newline) and the lazy group captures everything up to the EARLIEST
occurrence of the 4-character closing marker (newline, three backticks);
`re.findall` scans left to right and resumes after each match.  The two
markers are written as string literals below; `OPENER` is "```bash\n" and
`CLOSER` is "\n```". -/

def OPENER : List Char := "```bash\n".toList

def CLOSER : List Char := "\n```".toList

/- Split at the first occurrence of `pat`: returns the part before the
occurrence and the part after it. -/

def splitAtFirst (pat : List Char) : List Char → Option (List Char × List Char)
  | [] => if pat.isEmpty then some ([], []) else none
  | c :: t =>
    if pat.isPrefixOf (c :: t) then some ([], (c :: t).drop pat.length)
    else
      match splitAtFirst pat t with
      | some (b, r) => some (c :: b, r)
      | none => none

def findSnippetsF : Nat → List Char → List (List Char)
  | _, [] => []
  | 0, _ => []
  | fuel + 1, c :: t =>
    if OPENER.isPrefixOf (c :: t) then
      match splitAtFirst CLOSER ((c :: t).drop 8) with
      | some (body, rest) => body :: findSnippetsF fuel rest
      | none => findSnippetsF fuel t
    else findSnippetsF fuel t

def findSnippets (s : List Char) : List (List Char) :=
  findSnippetsF s.length s

/- ### Lemmas about splitAtFirst -/

theorem splitAtFirst_some (pat : List Char) :
    ∀ s b r, splitAtFirst pat s = some (b, r) → s = b ++ pat ++ r := by
  intro s
  induction s with
  | nil =>
    intro b r h
    rw [splitAtFirst] at h
    split at h
    case isTrue hp =>
      rw [Option.some.injEq, Prod.mk.injEq] at h
      obtain ⟨hb, hr⟩ := h
      have hpe : pat = [] := List.isEmpty_iff.mp (by simpa using hp)
      simp [← hb, ← hr, hpe]
    case isFalse => simp at h
  | cons c t ih =>
    intro b r h
    rw [splitAtFirst] at h
    split at h
    case isTrue hp =>
      rw [Option.some.injEq, Prod.mk.injEq] at h
      obtain ⟨hb, hr⟩ := h
      obtain ⟨u, hu⟩ := List.isPrefixOf_iff_prefix.mp hp
      have hdrop : (c :: t).drop pat.length = u := by
        rw [← hu]
        exact List.drop_left _ _
      subst hb
      subst hr
      rw [hdrop]
      simpa using hu.symm
    case isFalse =>
      split at h
      case h_1 b2 r2 heq =>
        rw [Option.some.injEq, Prod.mk.injEq] at h
        obtain ⟨hb, hr⟩ := h
        have := ih b2 r2 heq
        rw [← hb, ← hr]
        simp [this]
      case h_2 => simp at h

/- The backtick character, extracted from a string literal. -/

def btChar : Char := "`".toList.headI

theorem containsSub_cons_false (pat : List Char) (c : Char) (t : List Char)
    (h : containsSub pat (c :: t) = false) : containsSub pat t = false := by
  rw [containsSub] at h
  exact (Bool.or_eq_false_iff.mp h).2

/- No occurrence of the closing marker can straddle the boundary between a
closer-free `body` and the closer that follows it: the closer has no
self-overlap. -/

theorem closer_not_prefix_sandwich : ∀ (body rest : List Char), body ≠ [] →
    containsSub CLOSER body = false →
    CLOSER.isPrefixOf (body ++ CLOSER ++ rest) = false := by
  intro body rest hne hcont
  match body with
  | [a] =>
    rw [show CLOSER.isPrefixOf ([a] ++ CLOSER ++ rest) =
        (('\n' == a) && (("```".toList).isPrefixOf (CLOSER ++ rest)))
      from rfl]
    rw [show (("```".toList).isPrefixOf (CLOSER ++ rest)) = false from rfl]
    simp
  | [a, b] =>
    rw [show CLOSER.isPrefixOf ([a, b] ++ CLOSER ++ rest) =
        (('\n' == a) && ((btChar == b) &&
          (("``".toList).isPrefixOf (CLOSER ++ rest)))) from rfl]
    rw [show (("``".toList).isPrefixOf (CLOSER ++ rest)) = false from rfl]
    simp
  | [a, b, c] =>
    rw [show CLOSER.isPrefixOf ([a, b, c] ++ CLOSER ++ rest) =
        (('\n' == a) && ((btChar == b) && ((btChar == c) &&
          (("`".toList).isPrefixOf (CLOSER ++ rest))))) from rfl]
    rw [show (("`".toList).isPrefixOf (CLOSER ++ rest)) = false from rfl]
    simp
  | a :: b :: c :: d :: t =>
    by_cases hp : CLOSER.isPrefixOf ((a :: b :: c :: d :: t) ++ CLOSER ++ rest)
        = true
    · exfalso
      have hpp : CLOSER <+: (a :: b :: c :: d :: t) ++ CLOSER ++ rest :=
        List.isPrefixOf_iff_prefix.mp hp
      have hbp : (a :: b :: c :: d :: t) <+:
          (a :: b :: c :: d :: t) ++ CLOSER ++ rest :=
        (List.prefix_append _ CLOSER).trans (List.prefix_append _ rest)
      have hb : CLOSER <+: a :: b :: c :: d :: t :=
        List.prefix_of_prefix_length_le hpp hbp (by simp [CLOSER])
      rw [containsSub_of_isPrefixOf _ _
        (List.isPrefixOf_iff_prefix.mpr hb)] at hcont
      cases hcont
    · exact Bool.eq_false_iff.mpr hp

/- The lazy group stops at the first closer: splitting the concatenation of
a closer-free body, the closer and a remainder recovers exactly the body
and the remainder. -/

theorem splitAtFirst_sandwich : ∀ (body rest : List Char),
    containsSub CLOSER body = false →
    splitAtFirst CLOSER (body ++ CLOSER ++ rest) = some (body, rest) := by
  intro body
  induction body with
  | nil =>
    intro rest _
    show splitAtFirst CLOSER ('\n' :: ("```".toList ++ rest)) = some ([], rest)
    rw [splitAtFirst]
    have hpre : CLOSER.isPrefixOf ('\n' :: ("```".toList ++ rest)) = true :=
      List.isPrefixOf_iff_prefix.mpr
        (by exact List.prefix_append CLOSER rest)
    rw [if_pos hpre]
    have hdrop : ('\n' :: ("```".toList ++ rest)).drop CLOSER.length = rest :=
      by exact List.drop_left CLOSER rest
    rw [hdrop]
  | cons a body ih =>
    intro rest h
    show splitAtFirst CLOSER (a :: (body ++ CLOSER ++ rest)) =
      some (a :: body, rest)
    rw [splitAtFirst]
    have hnp : CLOSER.isPrefixOf (a :: (body ++ CLOSER ++ rest)) = false := by
      exact closer_not_prefix_sandwich (a :: body) rest (by simp) h
    rw [hnp]
    simp only [Bool.false_eq_true, if_false]
    rw [ih rest (containsSub_cons_false _ _ _ h)]

theorem findSnippetsF_succ_cons (f : Nat) (c : Char) (t : List Char) :
    findSnippetsF (f + 1) (c :: t) =
      if OPENER.isPrefixOf (c :: t) = true then
        match splitAtFirst CLOSER ((c :: t).drop 8) with
        | some (body, rest) => body :: findSnippetsF f rest
        | none => findSnippetsF f t
      else findSnippetsF f t := rfl

/- The result does not depend on the fuel, as long as the fuel dominates
the string length. -/

theorem findSnippetsF_congr : ∀ (f1 f2 : Nat) (s : List Char),
    s.length ≤ f1 → s.length ≤ f2 → findSnippetsF f1 s = findSnippetsF f2 s := by
  intro f1
  induction f1 with
  | zero =>
    intro f2 s h1 _
    have hs : s = [] := List.eq_nil_of_length_eq_zero (Nat.le_zero.mp h1)
    subst hs
    cases f2 <;> rfl
  | succ f ih =>
    intro f2 s h1 h2
    cases s with
    | nil => cases f2 <;> rfl
    | cons c t =>
      cases f2 with
      | zero => simp at h2
      | succ g =>
        rw [findSnippetsF_succ_cons, findSnippetsF_succ_cons]
        have ht1 : t.length ≤ f := by
          simp only [List.length_cons] at h1
          omega
        have ht2 : t.length ≤ g := by
          simp only [List.length_cons] at h2
          omega
        by_cases hop : OPENER.isPrefixOf (c :: t) = true
        · rw [if_pos hop, if_pos hop]
          rcases hsp : splitAtFirst CLOSER ((c :: t).drop 8) with _ | ⟨body, rest⟩
          · exact ih g t ht1 ht2
          · have hdec := splitAtFirst_some CLOSER _ _ _ hsp
            have hdl : ((c :: t).drop 8).length = (c :: t).length - 8 :=
              List.length_drop _ _
            have hbl : ((c :: t).drop 8).length =
                body.length + CLOSER.length + rest.length := by
              rw [hdec]
              simp [List.length_append]
              omega
            have hc4 : CLOSER.length = 4 := rfl
            have hr1 : rest.length ≤ f := by
              simp only [List.length_cons] at hdl
              omega
            have hr2 : rest.length ≤ g := by
              simp only [List.length_cons] at hdl
              omega
            show body :: findSnippetsF f rest = body :: findSnippetsF g rest
            rw [ih g rest hr1 hr2]
        · rw [if_neg hop, if_neg hop]
          exact ih g t ht1 ht2

/- A document with no opening fence marker yields no snippets. -/

theorem findSnippetsF_no_opener : ∀ (fuel : Nat) (s : List Char),
    containsSub OPENER s = false → findSnippetsF fuel s = [] := by
  intro fuel
  induction fuel with
  | zero => intro s _; cases s <;> rfl
  | succ f ih =>
    intro s h
    cases s with
    | nil => rfl
    | cons c t =>
      have hop : OPENER.isPrefixOf (c :: t) = false := by
        rw [containsSub] at h
        exact (Bool.or_eq_false_iff.mp h).1
      rw [findSnippetsF_succ_cons, hop]
      simp only [Bool.false_eq_true, if_false]
      exact ih t (containsSub_cons_false _ _ _ h)

/- A document starting with a complete bash fence yields the fence body
followed by the snippets of the remainder. -/

theorem findSnippets_fence_step (body rest : List Char)
    (h : containsSub CLOSER body = false) :
    findSnippets (OPENER ++ body ++ CLOSER ++ rest) =
      body :: findSnippets rest := by
  have h8 : OPENER.length = 8 := rfl
  have h4 : CLOSER.length = 4 := rfl
  have hXlen : (OPENER ++ body ++ CLOSER ++ rest).length =
      (11 + body.length + rest.length) + 1 := by
    simp [List.length_append, h8, h4]
    omega
  show findSnippetsF (OPENER ++ body ++ CLOSER ++ rest).length
    (OPENER ++ body ++ CLOSER ++ rest) = body :: findSnippets rest
  rw [hXlen]
  rw [show (OPENER ++ body ++ CLOSER ++ rest) =
    btChar :: ("``bash\n".toList ++ (body ++ CLOSER ++ rest)) from rfl]
  rw [findSnippetsF_succ_cons]
  have hop : OPENER.isPrefixOf
      (btChar :: ("``bash\n".toList ++ (body ++ CLOSER ++ rest))) = true :=
    List.isPrefixOf_iff_prefix.mpr
      (by exact List.prefix_append OPENER (body ++ CLOSER ++ rest))
  rw [if_pos hop]
  have hdrop : (btChar ::
      ("``bash\n".toList ++ (body ++ CLOSER ++ rest))).drop 8 =
      body ++ CLOSER ++ rest := by
    show List.drop 8 (OPENER ++ (body ++ CLOSER ++ rest)) =
      body ++ CLOSER ++ rest
    exact List.drop_left' h8
  rw [hdrop, splitAtFirst_sandwich body rest h]
  show body :: findSnippetsF (11 + body.length + rest.length) rest =
    body :: findSnippetsF rest.length rest
  rw [findSnippetsF_congr (11 + body.length + rest.length) rest.length rest
    (by omega) (le_refl _)]

set_option maxRecDepth 16384 in
/-- Claim C2: the snippet extractor returns exactly the code blocks
delimited by the bash fence marker, in order of appearance, each body
returned verbatim (internal line breaks preserved, the lazy group stopping
at the first closing marker); a document with no bash opening marker — in
particular one whose fences all carry another language tag — yields the
empty sequence. -/
theorem findSnippets_spec :
    (∀ s, containsSub OPENER s = false → findSnippets s = []) ∧
    (∀ body rest, containsSub CLOSER body = false →
      findSnippets (OPENER ++ body ++ CLOSER ++ rest) =
        body :: findSnippets rest) ∧
    findSnippets ("# Get started\n\n```bash\ngit init -q -b main\ngit add .\n```\n\nSome text.\n\n```python\nprint(1)\n```\n\n```bash\ngit commit -q -m \"init\"\n```\nend\n".toList) =
      ["git init -q -b main\ngit add .".toList,
       "git commit -q -m \"init\"".toList] ∧
    findSnippets ("```python\nprint(1)\n```\n".toList) = [] :=
  ⟨fun s => findSnippetsF_no_opener s.length s,
   findSnippets_fence_step, by decide, by decide⟩

/-- Witness for `findSnippets_spec`: a fence-free document yields no
snippets, and a document that starts with a complete bash fence around
"git init" followed by a trailing newline yields exactly that body. -/
theorem findSnippets_spec_witness :
    findSnippets ("just text, no fences".toList) = [] ∧
    findSnippets (OPENER ++ "git init".toList ++ CLOSER ++ "\n".toList) =
      "git init".toList :: findSnippets ("\n".toList) :=
  ⟨findSnippets_spec.1 ("just text, no fences".toList) (by decide),
   findSnippets_spec.2.1 ("git init".toList) ("\n".toList) (by decide)⟩

/- ### Script assembly and the degenerate zero-snippet run (lines 78-114)

The script is the platform prelude, the joined snippets (rewritten for
PowerShell on Windows) and the trailing verification command; the captured
output of running it is compared against the fixture. -/

def buildScript (isWindows : Bool) (snippets : List (List Char)) : List Char :=
  (if isWindows then
    "\nSet-PSDebug -Trace 1\n ".toList ++ joinNL (powershellify snippets)
  else "\nset -xe\n".toList ++ joinNL snippets) ++
    "\ngittuf verify-ref main".toList

def test_commands_model (isWindows : Bool) (doc expected : List Char)
    (execOutput : List Char → List Char) : RunReport :=
  compareReport expected
    (execOutput (buildScript isWindows (findSnippets doc)))

/-- Claim C8: for a documentation file from which the extractor finds zero
fenced bash blocks, the assembled script is exactly the fixed platform
prelude followed by the trailing verification command
"gittuf verify-ref main", and the run still performs the normal comparison
of the captured output against the configured fixture. -/
theorem zero_snippet_run (isWindows : Bool) (doc expected : List Char)
    (execOutput : List Char → List Char) (h : findSnippets doc = []) :
    buildScript isWindows (findSnippets doc) =
      (if isWindows then "\nSet-PSDebug -Trace 1\n ".toList
        else "\nset -xe\n".toList) ++ "\ngittuf verify-ref main".toList ∧
    test_commands_model isWindows doc expected execOutput =
      compareReport expected (execOutput
        ((if isWindows then "\nSet-PSDebug -Trace 1\n ".toList
          else "\nset -xe\n".toList) ++
          "\ngittuf verify-ref main".toList)) := by
  have hb : buildScript isWindows (findSnippets doc) =
      (if isWindows then "\nSet-PSDebug -Trace 1\n ".toList
        else "\nset -xe\n".toList) ++ "\ngittuf verify-ref main".toList := by
    rw [h]
    cases isWindows <;> simp [buildScript, powershellify, joinNL]
  refine ⟨hb, ?_⟩
  show compareReport expected
    (execOutput (buildScript isWindows (findSnippets doc))) = _
  rw [hb]

/-- Witness for `zero_snippet_run`: on the fence-free document
"# nothing here" the unix script collapses to the prelude plus
"gittuf verify-ref main" and the comparison still runs on the fixture. -/
theorem zero_snippet_run_witness :
    buildScript false (findSnippets ("# nothing here\n".toList)) =
      "\nset -xe\n".toList ++ "\ngittuf verify-ref main".toList ∧
    test_commands_model false ("# nothing here\n".toList) ("ok".toList)
        (fun _ => "ok".toList) =
      compareReport ("ok".toList)
        ((fun _ : List Char => "ok".toList)
          ("\nset -xe\n".toList ++ "\ngittuf verify-ref main".toList)) := by
  have h := zero_snippet_run false ("# nothing here\n".toList) ("ok".toList)
    (fun _ => "ok".toList) (by decide)
  exact ⟨by simpa using h.1, by simpa using h.2⟩
